import Mathlib

/-!
Verification of the stock-allocation core of `haibun4.py`
(`allocate_stock_recursive` and its inner `redistribute_recursive`).

The embedding works over exact rationals (`ℚ`), as the specification's
"exactly, under exact arithmetic" reading.  The Python recursion has no
structural termination argument, so it is embedded with an explicit fuel
parameter; `allocate_stock_recursive` below always supplies
`customers.length + 1` units of fuel, and the development proves
(`redistribute_fuel_stable`) that under the spec's preconditions this fuel
is never exhausted, i.e. adding more fuel does not change the result, so
the fuel-based function agrees with the unbounded Python recursion on all
inputs the claims quantify over.
-/

/-- One customer record.  The Python dicts carry `"name"`, `"ratio"`,
`"demand"` and `"allocated"`; the name is an opaque string the allocator
never reads, so it is omitted from the embedding. -/
structure Customer where
  ratio : ℚ
  demand : ℚ
  allocated : ℚ
  deriving DecidableEq

/-- `remain = cust["demand"] - cust["allocated"]`. -/
def remain (c : Customer) : ℚ := c.demand - c.allocated

/-- Step 1 of the source: `c["allocated"] = min(c["ratio"] * logic_stock, c["demand"])`. -/
def initialAlloc (logic_stock : ℚ) (c : Customer) : Customer :=
  { c with allocated := min (c.ratio * logic_stock) c.demand }

/-- `sum(c["allocated"] for c in customers)`. -/
def sumAlloc (cs : List Customer) : ℚ := (cs.map (fun c => c.allocated)).sum

/-- The `ratio_sum` loop of `redistribute_recursive`: sum of `ratio` over
customers with `remain > 0`. -/
def ratioSum (cs : List Customer) : ℚ :=
  (cs.map (fun c => if 0 < remain c then c.ratio else 0)).sum

/-- The amount one customer receives in one redistribution round:
`actual = min(lf * (ratio / ratio_sum), remain)` if it has unmet demand,
`0` otherwise. -/
def roundAmount (lf rs : ℚ) (c : Customer) : ℚ :=
  if 0 < remain c then min (lf * (c.ratio / rs)) (remain c) else 0

/-- The per-customer mutation of one redistribution round:
`cust["allocated"] += actual` for customers with unmet demand. -/
def roundUpdate (lf rs : ℚ) (c : Customer) : Customer :=
  if 0 < remain c then
    { c with allocated := c.allocated + min (lf * (c.ratio / rs)) (remain c) }
  else c

/-- `allocated_this_round`: total handed out in one redistribution round. -/
def allocatedThisRound (cs : List Customer) (lf rs : ℚ) : ℚ :=
  (cs.map (roundAmount lf rs)).sum

/-- The inner `redistribute_recursive(customer_list, lf)` of the source,
with an explicit fuel parameter standing for the recursion depth budget
(the Python code recurses unboundedly; fuel `customers.length + 1` is
proved sufficient under the preconditions).  Returns the mutated customer
list together with the final leftover. -/
def redistribute_recursive : Nat → List Customer → ℚ → List Customer × ℚ
  | 0, customer_list, lf => (customer_list, lf)
  | fuel + 1, customer_list, lf =>
    if lf ≤ 0 then (customer_list, lf)
    else if ratioSum customer_list = 0 then (customer_list, lf)
    else if 0 < lf - allocatedThisRound customer_list lf (ratioSum customer_list) ∧
            0 < allocatedThisRound customer_list lf (ratioSum customer_list) then
      redistribute_recursive fuel
        (customer_list.map (roundUpdate lf (ratioSum customer_list)))
        (lf - allocatedThisRound customer_list lf (ratioSum customer_list))
    else
      (customer_list.map (roundUpdate lf (ratioSum customer_list)),
       lf - allocatedThisRound customer_list lf (ratioSum customer_list))

/-- Python 3's built-in `round` (round half to even) on an exact rational,
modelling step 4 of the source (`c["allocated"] = round(c["allocated"])`). -/
def pyRound (x : ℚ) : ℤ :=
  if x - ⌊x⌋ < 1/2 then ⌊x⌋
  else if (1 : ℚ)/2 < x - ⌊x⌋ then ⌊x⌋ + 1
  else if ⌊x⌋ % 2 = 0 then ⌊x⌋ else ⌊x⌋ + 1

/-- Step 4 of the source applied to one record. -/
def roundAllocated (c : Customer) : Customer :=
  { c with allocated := (pyRound c.allocated : ℚ) }

/-- Steps 1-3 of `allocate_stock_recursive`: the state just before the
final rounding step, paired with the final leftover. -/
def allocate_pre (customers : List Customer) (logic_stock : ℚ) :
    List Customer × ℚ :=
  redistribute_recursive (customers.length + 1)
    (customers.map (initialAlloc logic_stock))
    (logic_stock - sumAlloc (customers.map (initialAlloc logic_stock)))

/-- The full `allocate_stock_recursive(customers, logic_stock)` of the
source: initial pass, recursive redistribution, then rounding. -/
def allocate_stock_recursive (customers : List Customer) (logic_stock : ℚ) :
    List Customer :=
  (allocate_pre customers logic_stock).1.map roundAllocated

/-- The source body of `allocate_stock_recursive` contains no `raise`
statement, so its only outcome is a normal return.  This wrapper makes the
absence of an error path explicit in the type. -/
def allocate_run (customers : List Customer) (logic_stock : ℚ) :
    Except String (List Customer) :=
  Except.ok (allocate_stock_recursive customers logic_stock)

/-- Count of customers that can still absorb stock in a redistribution
round: unmet demand and a positive ratio.  This is the termination
measure of the recursion. -/
def activeCount (cs : List Customer) : Nat :=
  cs.countP (fun c => decide (0 < remain c ∧ 0 < c.ratio))

/-- The closed form the redistribution converges to: cap the previous
allocation plus `ratio * μ` at the demand ceiling. -/
def waterfill (μ : ℚ) (c : Customer) : Customer :=
  { c with allocated := min c.demand (c.allocated + c.ratio * μ) }

/-- Closed form of the whole pre-rounding computation: `min (demand, ratio * lam)`. -/
def waterfillInit (lam : ℚ) (c : Customer) : Customer :=
  { c with allocated := min c.demand (c.ratio * lam) }

/-- Total demand carried by customers with positive ratio. -/
def posRatioDemandSum (cs : List Customer) : ℚ :=
  (cs.map (fun c => if 0 < c.ratio then c.demand else 0)).sum

/-- Sum of all ratios of the input (the spec allows it to differ from 1). -/
def ratioTotal (cs : List Customer) : ℚ :=
  (cs.map (fun c => c.ratio)).sum

/-! ### Generic list lemmas -/

theorem sum_map_zero_of (l : List Customer) (f : Customer → ℚ)
    (h : ∀ c ∈ l, f c = 0) : (l.map f).sum = 0 := by
  induction l with
  | nil => simp
  | cons a t ih => simp [h a (by simp), ih (fun c hc => h c (by simp [hc]))]

theorem sum_map_add_distrib (l : List Customer) (f g : Customer → ℚ) :
    (l.map fun c => f c + g c).sum = (l.map f).sum + (l.map g).sum := by
  induction l with
  | nil => simp
  | cons a t ih => simp only [List.map_cons, List.sum_cons, ih]; ring

theorem sum_map_nonneg (l : List Customer) (f : Customer → ℚ)
    (h : ∀ c ∈ l, 0 ≤ f c) : 0 ≤ (l.map f).sum := by
  induction l with
  | nil => simp
  | cons a t ih =>
    simp only [List.map_cons, List.sum_cons]
    have h1 := h a (by simp)
    have h2 := ih (fun c hc => h c (by simp [hc]))
    linarith

theorem sum_map_pos_of_mem (l : List Customer) (f : Customer → ℚ) (c : Customer)
    (hnn : ∀ x ∈ l, 0 ≤ f x) (hc : c ∈ l) (hpos : 0 < f c) :
    0 < (l.map f).sum := by
  induction l with
  | nil => exact absurd hc (List.not_mem_nil c)
  | cons a t ih =>
    simp only [List.map_cons, List.sum_cons]
    rcases List.mem_cons.mp hc with h | h
    · subst h
      have := sum_map_nonneg t f (fun x hx => hnn x (by simp [hx]))
      linarith
    · have h1 := hnn a (by simp)
      have h2 := ih (fun x hx => hnn x (by simp [hx])) h
      linarith

theorem sum_map_eq_zero_iff_all (l : List Customer) (f : Customer → ℚ)
    (hnn : ∀ x ∈ l, 0 ≤ f x) (hsum : (l.map f).sum = 0) :
    ∀ c ∈ l, f c = 0 := by
  intro c hc
  by_contra hne
  have hpos : 0 < f c := lt_of_le_of_ne (hnn c hc) (Ne.symm hne)
  have := sum_map_pos_of_mem l f c hnn hc hpos
  . exact absurd hsum (by linarith)

theorem map_eq_self_of (l : List Customer) (f : Customer → Customer)
    (h : ∀ c ∈ l, f c = c) : l.map f = l := by
  induction l with
  | nil => rfl
  | cons a t ih => simp [h a (by simp), ih (fun c hc => h c (by simp [hc]))]

theorem getD_mem (l : List Customer) (i : Nat) (d : Customer) (h : i < l.length) :
    l.getD i d ∈ l := by
  rw [List.getD_eq_getElem _ _ h]
  exact List.getElem_mem ..

theorem getD_map (f : Customer → Customer) (l : List Customer) (i : Nat)
    (h : i < l.length) (d d' : Customer) :
    (l.map f).getD i d = f (l.getD i d') := by
  rw [List.getD_eq_getElem _ _ (by simpa using h), List.getD_eq_getElem _ _ h]
  simp

theorem getD_set_self (l : List Customer) (i : Nat) (a d : Customer)
    (h : i < l.length) : (l.set i a).getD i d = a := by
  rw [List.getD_eq_getElem _ _ (by simpa using h)]
  simp [h]

theorem sum_map_sub_getD_le (f g : Customer → ℚ) :
    ∀ (l : List Customer) (i : Nat), i < l.length → (∀ c ∈ l, f c ≤ g c) →
      (l.map f).sum - f (l.getD i ⟨0, 0, 0⟩) ≤ (l.map g).sum - g (l.getD i ⟨0, 0, 0⟩)
  | [], i, hi, _ => by simp at hi
  | a :: t, 0, _, h => by
    simp only [List.map_cons, List.sum_cons, List.getD_cons_zero]
    have := List.sum_le_sum (fun c hc => h c (List.mem_cons_of_mem a hc))
    linarith
  | a :: t, i + 1, hi, h => by
    simp only [List.map_cons, List.sum_cons, List.getD_cons_succ]
    have h1 := sum_map_sub_getD_le f g t i (by simpa using hi)
      (fun c hc => h c (List.mem_cons_of_mem a hc))
    have h2 := h a (by simp)
    linarith

theorem sum_map_set (f : Customer → ℚ) :
    ∀ (l : List Customer) (i : Nat) (a : Customer), i < l.length →
      ((l.set i a).map f).sum = (l.map f).sum - f (l.getD i ⟨0, 0, 0⟩) + f a
  | [], i, a, hi => by simp at hi
  | b :: t, 0, a, _ => by
    simp only [List.set_cons_zero, List.map_cons, List.sum_cons, List.getD_cons_zero]
    ring
  | b :: t, i + 1, a, hi => by
    simp only [List.set_cons_succ, List.map_cons, List.sum_cons, List.getD_cons_succ]
    have := sum_map_set f t i a (by simpa using hi)
    linarith

theorem countP_le_of_imp (l : List Customer) (p q : Customer → Bool)
    (himp : ∀ x ∈ l, p x = true → q x = true) : l.countP p ≤ l.countP q := by
  induction l with
  | nil => simp
  | cons a t ih =>
    simp only [List.countP_cons]
    have h1 := ih (fun x hx => himp x (by simp [hx]))
    by_cases hpa : p a = true
    · have hqa := himp a (by simp) hpa
      simp [hpa, hqa]
      omega
    · have hpa' : p a = false := by simpa using hpa
      simp [hpa']
      split <;> omega

theorem countP_lt_of_mem (l : List Customer) (p q : Customer → Bool)
    (himp : ∀ x ∈ l, p x = true → q x = true) (c : Customer) (hc : c ∈ l)
    (hq : q c = true) (hp : p c = false) : l.countP p < l.countP q := by
  induction l with
  | nil => exact absurd hc (List.not_mem_nil c)
  | cons a t ih =>
    simp only [List.countP_cons]
    rcases List.mem_cons.mp hc with h | h
    · subst h
      have h1 := countP_le_of_imp t p q (fun x hx => himp x (by simp [hx]))
      simp [hp, hq]
      omega
    · have h1 := ih (fun x hx => himp x (by simp [hx])) h
      by_cases hpa : p a = true
      · have hqa := himp a (by simp) hpa
        simp [hpa, hqa]
        omega
      · have hpa' : p a = false := by simpa using hpa
        simp [hpa']
        split <;> omega

/-! ### Pointwise facts about one redistribution round -/

theorem roundUpdate_ratio (lf rs : ℚ) (c : Customer) :
    (roundUpdate lf rs c).ratio = c.ratio := by
  unfold roundUpdate; split <;> rfl

theorem roundUpdate_demand (lf rs : ℚ) (c : Customer) :
    (roundUpdate lf rs c).demand = c.demand := by
  unfold roundUpdate; split <;> rfl

theorem roundUpdate_allocated (lf rs : ℚ) (c : Customer) :
    (roundUpdate lf rs c).allocated = c.allocated + roundAmount lf rs c := by
  unfold roundUpdate roundAmount; split <;> simp

theorem waterfill_ratio (μ : ℚ) (c : Customer) : (waterfill μ c).ratio = c.ratio := rfl

theorem waterfill_demand (μ : ℚ) (c : Customer) : (waterfill μ c).demand = c.demand := rfl

theorem waterfillInit_ratio (lam : ℚ) (c : Customer) :
    (waterfillInit lam c).ratio = c.ratio := rfl

theorem waterfillInit_demand (lam : ℚ) (c : Customer) :
    (waterfillInit lam c).demand = c.demand := rfl

theorem roundAmount_nonneg (lf rs : ℚ) (c : Customer) (hlf : 0 ≤ lf)
    (hr : 0 ≤ c.ratio) (hrs : 0 < rs) : 0 ≤ roundAmount lf rs c := by
  unfold roundAmount
  split
  · exact le_min (mul_nonneg hlf (div_nonneg hr hrs.le)) (le_of_lt ‹_›)
  · exact le_refl 0

theorem ratioSum_nonneg (cs : List Customer) (hr : ∀ c ∈ cs, 0 ≤ c.ratio) :
    0 ≤ ratioSum cs := by
  apply sum_map_nonneg
  intro c hc
  split
  · exact hr c hc
  · exact le_refl 0

theorem ratioSum_pos (cs : List Customer) (hr : ∀ c ∈ cs, 0 ≤ c.ratio)
    (hne : ratioSum cs ≠ 0) : 0 < ratioSum cs :=
  lt_of_le_of_ne (ratioSum_nonneg cs hr) (Ne.symm hne)

theorem exists_active_of_ratioSum_ne (cs : List Customer)
    (hr : ∀ c ∈ cs, 0 ≤ c.ratio) (hne : ratioSum cs ≠ 0) :
    ∃ c ∈ cs, 0 < remain c ∧ 0 < c.ratio := by
  by_contra hcon
  push_neg at hcon
  apply hne
  apply sum_map_zero_of
  intro c hc
  split
  · exact le_antisymm (hcon c hc ‹_›) (hr c hc)
  · rfl

theorem unmet_ratio_zero_of_ratioSum_zero (cs : List Customer)
    (hr : ∀ c ∈ cs, 0 ≤ c.ratio) (h0 : ratioSum cs = 0) :
    ∀ c ∈ cs, 0 < remain c → c.ratio = 0 := by
  intro c hc hrem
  have := sum_map_eq_zero_iff_all cs _
    (fun x hx => by
      split
      · exact hr x hx
      · exact le_refl 0) h0 c hc
  simpa [hrem] using this

theorem allocatedThisRound_le (cs : List Customer) (lf : ℚ)
    (hne : ratioSum cs ≠ 0) : allocatedThisRound cs lf (ratioSum cs) ≤ lf := by
  unfold allocatedThisRound
  have h1 : (cs.map (roundAmount lf (ratioSum cs))).sum ≤
      (cs.map fun c => (lf / ratioSum cs) *
        (if 0 < remain c then c.ratio else 0)).sum := by
    apply List.sum_le_sum
    intro c _
    unfold roundAmount
    split
    · refine le_trans (min_le_left _ _) (le_of_eq ?_)
      ring
    · simp
  rw [List.sum_map_mul_left] at h1
  have h2 : (cs.map fun c => if 0 < remain c then c.ratio else 0).sum = ratioSum cs := rfl
  rw [h2, div_mul_cancel₀ lf hne] at h1
  exact h1

theorem allocatedThisRound_pos (cs : List Customer) (lf : ℚ)
    (hr : ∀ c ∈ cs, 0 ≤ c.ratio) (hlf : 0 < lf) (hne : ratioSum cs ≠ 0) :
    0 < allocatedThisRound cs lf (ratioSum cs) := by
  have hrs := ratioSum_pos cs hr hne
  obtain ⟨c, hc, hrem, hcr⟩ := exists_active_of_ratioSum_ne cs hr hne
  apply sum_map_pos_of_mem cs _ c
    (fun x hx => roundAmount_nonneg lf _ x hlf.le (hr x hx) hrs) hc
  unfold roundAmount
  rw [if_pos hrem]
  exact lt_min (mul_pos hlf (div_pos hcr hrs)) hrem

/-! ### Invariants of the redistribution recursion -/

theorem redistribute_zero (cs : List Customer) (lf : ℚ) :
    redistribute_recursive 0 cs lf = (cs, lf) := rfl

theorem redistribute_succ (fuel : Nat) (cs : List Customer) (lf : ℚ) :
    redistribute_recursive (fuel + 1) cs lf =
      if lf ≤ 0 then (cs, lf)
      else if ratioSum cs = 0 then (cs, lf)
      else if 0 < lf - allocatedThisRound cs lf (ratioSum cs) ∧
              0 < allocatedThisRound cs lf (ratioSum cs) then
        redistribute_recursive fuel (cs.map (roundUpdate lf (ratioSum cs)))
          (lf - allocatedThisRound cs lf (ratioSum cs))
      else
        (cs.map (roundUpdate lf (ratioSum cs)),
         lf - allocatedThisRound cs lf (ratioSum cs)) := rfl

theorem redistribute_length (fuel : Nat) : ∀ (cs : List Customer) (lf : ℚ),
    (redistribute_recursive fuel cs lf).1.length = cs.length := by
  induction fuel with
  | zero => intro cs lf; rfl
  | succ n ih =>
    intro cs lf
    rw [redistribute_succ]
    by_cases h1 : lf ≤ 0
    · simp [h1]
    rw [if_neg h1]
    by_cases h2 : ratioSum cs = 0
    · simp [h2]
    rw [if_neg h2]
    by_cases h3 : 0 < lf - allocatedThisRound cs lf (ratioSum cs) ∧
        0 < allocatedThisRound cs lf (ratioSum cs)
    · rw [if_pos h3, ih]
      simp
    · rw [if_neg h3]
      simp

theorem sumAlloc_roundUpdate (cs : List Customer) (lf rs : ℚ) :
    sumAlloc (cs.map (roundUpdate lf rs)) =
      sumAlloc cs + allocatedThisRound cs lf rs := by
  unfold sumAlloc allocatedThisRound
  rw [List.map_map]
  calc (cs.map ((fun c => c.allocated) ∘ roundUpdate lf rs)).sum
      = (cs.map fun c => c.allocated + roundAmount lf rs c).sum := by
        exact congrArg List.sum
          (List.map_congr_left fun c _ => roundUpdate_allocated lf rs c)
    _ = (cs.map fun c => c.allocated).sum + (cs.map (roundAmount lf rs)).sum :=
        sum_map_add_distrib cs _ _

theorem redistribute_sum (fuel : Nat) : ∀ (cs : List Customer) (lf : ℚ),
    sumAlloc (redistribute_recursive fuel cs lf).1 +
      (redistribute_recursive fuel cs lf).2 = sumAlloc cs + lf := by
  induction fuel with
  | zero => intro cs lf; rfl
  | succ n ih =>
    intro cs lf
    rw [redistribute_succ]
    by_cases h1 : lf ≤ 0
    · simp [h1]
    rw [if_neg h1]
    by_cases h2 : ratioSum cs = 0
    · simp [h2]
    rw [if_neg h2]
    by_cases h3 : 0 < lf - allocatedThisRound cs lf (ratioSum cs) ∧
        0 < allocatedThisRound cs lf (ratioSum cs)
    · rw [if_pos h3, ih, sumAlloc_roundUpdate]
      ring
    · rw [if_neg h3]
      show sumAlloc (cs.map (roundUpdate lf (ratioSum cs))) +
        (lf - allocatedThisRound cs lf (ratioSum cs)) = sumAlloc cs + lf
      rw [sumAlloc_roundUpdate]
      ring

theorem redistribute_lf_nonneg (fuel : Nat) : ∀ (cs : List Customer) (lf : ℚ),
    0 ≤ lf → 0 ≤ (redistribute_recursive fuel cs lf).2 := by
  induction fuel with
  | zero => intro cs lf h; exact h
  | succ n ih =>
    intro cs lf hlf
    rw [redistribute_succ]
    by_cases h1 : lf ≤ 0
    · simpa [h1] using hlf
    rw [if_neg h1]
    by_cases h2 : ratioSum cs = 0
    · simpa [h2] using hlf
    rw [if_neg h2]
    have hle := allocatedThisRound_le cs lf h2
    by_cases h3 : 0 < lf - allocatedThisRound cs lf (ratioSum cs) ∧
        0 < allocatedThisRound cs lf (ratioSum cs)
    · rw [if_pos h3]
      exact ih _ _ (by linarith)
    · rw [if_neg h3]
      show (0:ℚ) ≤ lf - allocatedThisRound cs lf (ratioSum cs)
      linarith

theorem roundUpdate_bounds (lf rs : ℚ) (c : Customer) (hlf : 0 ≤ lf)
    (hr : 0 ≤ c.ratio) (hrs : 0 < rs)
    (hb : 0 ≤ c.allocated ∧ c.allocated ≤ c.demand) :
    0 ≤ (roundUpdate lf rs c).allocated ∧
      (roundUpdate lf rs c).allocated ≤ (roundUpdate lf rs c).demand := by
  rw [roundUpdate_demand, roundUpdate_allocated]
  constructor
  · have := roundAmount_nonneg lf rs c hlf hr hrs
    linarith [hb.1]
  · unfold roundAmount
    split
    · have hm : min (lf * (c.ratio / rs)) (remain c) ≤ remain c := min_le_right _ _
      have he : c.allocated + remain c = c.demand := by unfold remain; ring
      linarith
    · simpa using hb.2

theorem redistribute_bounds (fuel : Nat) : ∀ (cs : List Customer) (lf : ℚ),
    (∀ c ∈ cs, 0 ≤ c.ratio) →
    (∀ c ∈ cs, 0 ≤ c.allocated ∧ c.allocated ≤ c.demand) →
    ∀ c ∈ (redistribute_recursive fuel cs lf).1,
      0 ≤ c.allocated ∧ c.allocated ≤ c.demand := by
  induction fuel with
  | zero => intro cs lf _ hb; exact hb
  | succ n ih =>
    intro cs lf hr hb
    rw [redistribute_succ]
    by_cases h1 : lf ≤ 0
    · simpa [h1] using hb
    rw [if_neg h1]
    by_cases h2 : ratioSum cs = 0
    · simpa [h2] using hb
    rw [if_neg h2]
    have hlf : 0 < lf := lt_of_not_ge h1
    have hrs : 0 < ratioSum cs := ratioSum_pos cs hr h2
    have hmem : ∀ c ∈ cs.map (roundUpdate lf (ratioSum cs)),
        0 ≤ c.allocated ∧ c.allocated ≤ c.demand := by
      intro c hc
      obtain ⟨c₀, hc₀, rfl⟩ := List.mem_map.mp hc
      exact roundUpdate_bounds lf _ c₀ hlf.le (hr c₀ hc₀) hrs (hb c₀ hc₀)
    have hratio : ∀ c ∈ cs.map (roundUpdate lf (ratioSum cs)), 0 ≤ c.ratio := by
      intro c hc
      obtain ⟨c₀, hc₀, rfl⟩ := List.mem_map.mp hc
      rw [roundUpdate_ratio]
      exact hr c₀ hc₀
    by_cases h3 : 0 < lf - allocatedThisRound cs lf (ratioSum cs) ∧
        0 < allocatedThisRound cs lf (ratioSum cs)
    · rw [if_pos h3]
      exact ih _ _ hratio hmem
    · rw [if_neg h3]
      exact hmem

/-! ### Termination of the redistribution recursion -/

theorem remain_roundUpdate (lf rs : ℚ) (c : Customer) :
    remain (roundUpdate lf rs c) = remain c - roundAmount lf rs c := by
  unfold remain
  rw [roundUpdate_demand, roundUpdate_allocated]
  ring

theorem roundAmount_eq_portion (lf rs : ℚ) (c : Customer) (hrem : 0 < remain c)
    (hns : 0 < remain (roundUpdate lf rs c)) :
    roundAmount lf rs c = lf * (c.ratio / rs) := by
  rw [remain_roundUpdate] at hns
  unfold roundAmount at hns ⊢
  rw [if_pos hrem] at hns ⊢
  rcases le_total (lf * (c.ratio / rs)) (remain c) with h | h
  · rw [min_eq_left h]
  · rw [min_eq_right h] at hns
    linarith

theorem roundAmount_zero_ratio (lf rs : ℚ) (c : Customer) (hr : c.ratio = 0)
    (hrem : 0 < remain c) : roundAmount lf rs c = lf * (c.ratio / rs) := by
  unfold roundAmount
  rw [if_pos hrem, hr, zero_div, mul_zero]
  exact min_eq_left hrem.le

theorem allocatedThisRound_eq_lf (cs : List Customer) (lf : ℚ)
    (hr : ∀ c ∈ cs, 0 ≤ c.ratio) (hne : ratioSum cs ≠ 0)
    (hnosat : ∀ c ∈ cs, 0 < remain c → 0 < c.ratio →
      0 < remain (roundUpdate lf (ratioSum cs) c)) :
    allocatedThisRound cs lf (ratioSum cs) = lf := by
  unfold allocatedThisRound
  have h1 : (cs.map (roundAmount lf (ratioSum cs))).sum =
      (cs.map fun c => (lf / ratioSum cs) *
        (if 0 < remain c then c.ratio else 0)).sum := by
    apply congrArg List.sum
    apply List.map_congr_left
    intro c hc
    by_cases hrem : 0 < remain c
    · rw [if_pos hrem]
      rcases (hr c hc).lt_or_eq with hcr | hcr
      · rw [roundAmount_eq_portion lf _ c hrem (hnosat c hc hrem hcr)]
        ring
      · rw [roundAmount_zero_ratio lf _ c hcr.symm hrem]
        ring
    · rw [if_neg hrem]
      unfold roundAmount
      rw [if_neg hrem, mul_zero]
  rw [h1, List.sum_map_mul_left]
  have h2 : (cs.map fun c => if 0 < remain c then c.ratio else 0).sum = ratioSum cs := rfl
  rw [h2, div_mul_cancel₀ lf hne]

theorem active_of_active_roundUpdate (lf rs : ℚ) (c : Customer) (hlf : 0 ≤ lf)
    (hr : 0 ≤ c.ratio) (hrs : 0 < rs)
    (h : 0 < remain (roundUpdate lf rs c) ∧ 0 < (roundUpdate lf rs c).ratio) :
    0 < remain c ∧ 0 < c.ratio := by
  rw [roundUpdate_ratio] at h
  refine ⟨?_, h.2⟩
  rw [remain_roundUpdate] at h
  have := roundAmount_nonneg lf rs c hlf hr hrs
  linarith [h.1]

theorem activeCount_lt (cs : List Customer) (lf : ℚ)
    (hr : ∀ c ∈ cs, 0 ≤ c.ratio) (hlf : 0 < lf) (hne : ratioSum cs ≠ 0)
    (hlt : 0 < lf - allocatedThisRound cs lf (ratioSum cs)) :
    activeCount (cs.map (roundUpdate lf (ratioSum cs))) < activeCount cs := by
  have hrs := ratioSum_pos cs hr hne
  unfold activeCount
  rw [List.countP_map]
  have hsat : ∃ c ∈ cs, (0 < remain c ∧ 0 < c.ratio) ∧
      ¬ 0 < remain (roundUpdate lf (ratioSum cs) c) := by
    by_contra hcon
    push_neg at hcon
    have heq : allocatedThisRound cs lf (ratioSum cs) = lf := by
      apply allocatedThisRound_eq_lf cs lf hr hne
      intro c hc hrem hcr
      exact hcon c hc ⟨hrem, hcr⟩
    rw [heq] at hlt
    simp at hlt
  obtain ⟨c, hc, ⟨hrem, hcr⟩, hnosat⟩ := hsat
  apply countP_lt_of_mem cs
    ((fun c => decide (0 < remain c ∧ 0 < c.ratio)) ∘ roundUpdate lf (ratioSum cs))
    (fun c => decide (0 < remain c ∧ 0 < c.ratio)) ?_ c hc ?_ ?_
  · intro x hx hp
    rw [Function.comp_apply, decide_eq_true_eq] at hp
    rw [decide_eq_true_eq]
    exact active_of_active_roundUpdate lf _ x hlf.le (hr x hx) hrs hp
  · rw [decide_eq_true_eq]
    exact ⟨hrem, hcr⟩
  · rw [Function.comp_apply]
    apply decide_eq_false
    intro hcontra
    exact hnosat hcontra.1

theorem redistribute_terminal : ∀ (fuel : Nat) (cs : List Customer) (lf : ℚ),
    (∀ c ∈ cs, 0 ≤ c.ratio) → activeCount cs < fuel →
    (redistribute_recursive fuel cs lf).2 ≤ 0 ∨
      ratioSum (redistribute_recursive fuel cs lf).1 = 0 := by
  intro fuel
  induction fuel with
  | zero =>
    intro cs lf _ h
    exact absurd h (Nat.not_lt_zero _)
  | succ n ih =>
    intro cs lf hr hfuel
    rw [redistribute_succ]
    by_cases h1 : lf ≤ 0
    · rw [if_pos h1]
      left
      exact h1
    rw [if_neg h1]
    by_cases h2 : ratioSum cs = 0
    · rw [if_pos h2]
      right
      exact h2
    rw [if_neg h2]
    have hlf : 0 < lf := lt_of_not_ge h1
    by_cases h3 : 0 < lf - allocatedThisRound cs lf (ratioSum cs) ∧
        0 < allocatedThisRound cs lf (ratioSum cs)
    · rw [if_pos h3]
      apply ih
      · intro c hc
        obtain ⟨c₀, hc₀, rfl⟩ := List.mem_map.mp hc
        rw [roundUpdate_ratio]
        exact hr c₀ hc₀
      · have := activeCount_lt cs lf hr hlf h2 h3.1
        omega
    · rw [if_neg h3]
      left
      push_neg at h3
      show lf - allocatedThisRound cs lf (ratioSum cs) ≤ 0
      by_cases h4 : 0 < lf - allocatedThisRound cs lf (ratioSum cs)
      · have hatr := h3 h4
        have := allocatedThisRound_pos cs lf hr hlf h2
        linarith
      · linarith [not_lt.mp h4]

theorem redistribute_fuel_stable : ∀ (fuel : Nat) (cs : List Customer) (lf : ℚ),
    (∀ c ∈ cs, 0 ≤ c.ratio) → activeCount cs < fuel →
    ∀ fuel', fuel ≤ fuel' →
    redistribute_recursive fuel cs lf = redistribute_recursive fuel' cs lf := by
  intro fuel
  induction fuel with
  | zero =>
    intro cs lf _ h
    exact absurd h (Nat.not_lt_zero _)
  | succ n ih =>
    intro cs lf hr hfuel fuel' hle
    obtain ⟨m, rfl⟩ : ∃ m, fuel' = m + 1 := ⟨fuel' - 1, by omega⟩
    rw [redistribute_succ, redistribute_succ]
    by_cases h1 : lf ≤ 0
    · rw [if_pos h1, if_pos h1]
    rw [if_neg h1, if_neg h1]
    by_cases h2 : ratioSum cs = 0
    · rw [if_pos h2, if_pos h2]
    rw [if_neg h2, if_neg h2]
    have hlf : 0 < lf := lt_of_not_ge h1
    by_cases h3 : 0 < lf - allocatedThisRound cs lf (ratioSum cs) ∧
        0 < allocatedThisRound cs lf (ratioSum cs)
    · rw [if_pos h3, if_pos h3]
      apply ih
      · intro c hc
        obtain ⟨c₀, hc₀, rfl⟩ := List.mem_map.mp hc
        rw [roundUpdate_ratio]
        exact hr c₀ hc₀
      · have := activeCount_lt cs lf hr hlf h2 h3.1
        omega
      · omega
    · rw [if_neg h3, if_neg h3]

/-! ### Closed-form (water-filling) characterization of the redistribution -/

theorem customer_eq_of_allocated (c : Customer) (x : ℚ) (h : x = c.allocated) :
    ({ c with allocated := x } : Customer) = c := by
  cases c
  simp_all

theorem allocated_update_eq (c : Customer) (x y : ℚ) (h : x = y) :
    ({ c with allocated := x } : Customer) = { c with allocated := y } := by
  rw [h]

theorem waterfill_zero (c : Customer) (hb : c.allocated ≤ c.demand) :
    waterfill 0 c = c := by
  apply customer_eq_of_allocated
  rw [mul_zero, add_zero]
  exact min_eq_right hb

theorem roundUpdate_eq_waterfill (lf rs : ℚ) (c : Customer) (hlf : 0 ≤ lf)
    (hr : 0 ≤ c.ratio) (hrs : 0 < rs) (hb : c.allocated ≤ c.demand) :
    roundUpdate lf rs c = waterfill (lf / rs) c := by
  unfold roundUpdate waterfill
  by_cases hrem : 0 < remain c
  · rw [if_pos hrem]
    apply allocated_update_eq
    have hp : lf * (c.ratio / rs) = c.ratio * (lf / rs) := by ring
    rw [hp]
    rcases le_total (c.ratio * (lf / rs)) (remain c) with h | h
    · rw [min_eq_left h, min_eq_right (by unfold remain at h; linarith)]
    · rw [min_eq_right h, min_eq_left (by unfold remain at h; linarith)]
      unfold remain
      ring
  · rw [if_neg hrem]
    symm
    apply customer_eq_of_allocated
    have hd : c.demand ≤ c.allocated := by
      unfold remain at hrem
      linarith [not_lt.mp hrem]
    have ha : c.allocated = c.demand := le_antisymm hb hd
    have hnn : 0 ≤ c.ratio * (lf / rs) := mul_nonneg hr (div_nonneg hlf hrs.le)
    rw [ha]
    exact min_eq_left (by linarith)

theorem waterfill_comp (μ1 μ2 : ℚ) (c : Customer) (hr : 0 ≤ c.ratio)
    (h2 : 0 ≤ μ2) : waterfill μ2 (waterfill μ1 c) = waterfill (μ1 + μ2) c := by
  obtain ⟨r, d, a⟩ := c
  simp only [waterfill, Customer.mk.injEq, true_and] at hr ⊢
  rcases le_total (a + r * μ1) d with h | h
  · rw [min_eq_right h, mul_add, add_assoc]
  · rw [min_eq_left h]
    have hr2 : 0 ≤ r * μ2 := mul_nonneg hr h2
    rw [min_eq_left (by linarith), min_eq_left (by rw [mul_add]; linarith)]

theorem redistribute_waterfill : ∀ (fuel : Nat) (cs : List Customer) (lf : ℚ),
    (∀ c ∈ cs, 0 ≤ c.ratio) → (∀ c ∈ cs, c.allocated ≤ c.demand) →
    ∃ μ : ℚ, 0 ≤ μ ∧
      (redistribute_recursive fuel cs lf).1 = cs.map (waterfill μ) := by
  intro fuel
  induction fuel with
  | zero =>
    intro cs lf hr hb
    exact ⟨0, le_refl 0,
      (map_eq_self_of cs _ (fun c hc => waterfill_zero c (hb c hc))).symm⟩
  | succ n ih =>
    intro cs lf hr hb
    rw [redistribute_succ]
    by_cases h1 : lf ≤ 0
    · rw [if_pos h1]
      exact ⟨0, le_refl 0,
        (map_eq_self_of cs _ (fun c hc => waterfill_zero c (hb c hc))).symm⟩
    rw [if_neg h1]
    by_cases h2 : ratioSum cs = 0
    · rw [if_pos h2]
      exact ⟨0, le_refl 0,
        (map_eq_self_of cs _ (fun c hc => waterfill_zero c (hb c hc))).symm⟩
    rw [if_neg h2]
    have hlf : 0 < lf := lt_of_not_ge h1
    have hrs : 0 < ratioSum cs := ratioSum_pos cs hr h2
    have hdiv : 0 ≤ lf / ratioSum cs := div_nonneg hlf.le hrs.le
    have hmap : cs.map (roundUpdate lf (ratioSum cs)) =
        cs.map (waterfill (lf / ratioSum cs)) :=
      List.map_congr_left fun c hc =>
        roundUpdate_eq_waterfill lf _ c hlf.le (hr c hc) hrs (hb c hc)
    by_cases h3 : 0 < lf - allocatedThisRound cs lf (ratioSum cs) ∧
        0 < allocatedThisRound cs lf (ratioSum cs)
    · rw [if_pos h3]
      obtain ⟨μ2, hμ2, hres⟩ := ih (cs.map (roundUpdate lf (ratioSum cs)))
        (lf - allocatedThisRound cs lf (ratioSum cs))
        (by
          intro c hc
          obtain ⟨c₀, hc₀, rfl⟩ := List.mem_map.mp hc
          rw [roundUpdate_ratio]
          exact hr c₀ hc₀)
        (by
          intro c hc
          rw [hmap] at hc
          obtain ⟨c₀, hc₀, rfl⟩ := List.mem_map.mp hc
          rw [waterfill_demand]
          exact min_le_left _ _)
      refine ⟨lf / ratioSum cs + μ2, by linarith, ?_⟩
      rw [hres, hmap, List.map_map]
      apply List.map_congr_left
      intro c hc
      exact waterfill_comp (lf / ratioSum cs) μ2 c (hr c hc) hμ2
    · rw [if_neg h3]
      refine ⟨lf / ratioSum cs, hdiv, ?_⟩
      exact hmap

theorem waterfill_initialAlloc (S μ : ℚ) (c : Customer) (hr : 0 ≤ c.ratio)
    (hμ : 0 ≤ μ) : waterfill μ (initialAlloc S c) = waterfillInit (S + μ) c := by
  obtain ⟨r, d, a⟩ := c
  simp only [waterfill, initialAlloc, waterfillInit, Customer.mk.injEq,
    true_and] at hr ⊢
  rcases le_total (r * S) d with h | h
  · rw [min_eq_left h, mul_add]
  · rw [min_eq_right h]
    have hr2 : 0 ≤ r * μ := mul_nonneg hr hμ
    rw [min_eq_left (by linarith), min_eq_left (by rw [mul_add]; linarith)]

theorem allocate_pre_waterfill (cs : List Customer) (S : ℚ)
    (hr : ∀ c ∈ cs, 0 ≤ c.ratio) :
    ∃ lam : ℚ, S ≤ lam ∧ (allocate_pre cs S).1 = cs.map (waterfillInit lam) := by
  unfold allocate_pre
  obtain ⟨μ, hμ, hres⟩ := redistribute_waterfill (cs.length + 1)
    (cs.map (initialAlloc S))
    (S - sumAlloc (cs.map (initialAlloc S)))
    (by
      intro c hc
      obtain ⟨c₀, hc₀, rfl⟩ := List.mem_map.mp hc
      exact hr c₀ hc₀)
    (by
      intro c hc
      obtain ⟨c₀, hc₀, rfl⟩ := List.mem_map.mp hc
      exact min_le_right _ _)
  refine ⟨S + μ, by linarith, ?_⟩
  rw [hres, List.map_map]
  apply List.map_congr_left
  intro c hc
  exact waterfill_initialAlloc S μ c (hr c hc) hμ

/-! ### Facts about the pre-rounding state of `allocate_stock_recursive` -/

theorem allocate_pre_sum (cs : List Customer) (S : ℚ) :
    sumAlloc (allocate_pre cs S).1 + (allocate_pre cs S).2 = S := by
  unfold allocate_pre
  rw [redistribute_sum]
  ring

theorem initial_used_le (cs : List Customer) (S : ℚ) (hS : 0 ≤ S)
    (hT : ratioTotal cs ≤ 1) :
    sumAlloc (cs.map (initialAlloc S)) ≤ S := by
  unfold sumAlloc
  rw [List.map_map]
  have h1 : (cs.map ((fun c => c.allocated) ∘ initialAlloc S)).sum ≤
      (cs.map fun c => S * c.ratio).sum := by
    apply List.sum_le_sum
    intro c _
    show min (c.ratio * S) c.demand ≤ S * c.ratio
    rw [mul_comm]
    exact min_le_left _ _
  rw [List.sum_map_mul_left] at h1
  have h2 : (cs.map fun c => c.ratio).sum = ratioTotal cs := rfl
  rw [h2] at h1
  exact le_trans h1 (mul_le_of_le_one_right hS hT)

theorem allocate_pre_lf_nonneg (cs : List Customer) (S : ℚ) (hS : 0 ≤ S)
    (hT : ratioTotal cs ≤ 1) : 0 ≤ (allocate_pre cs S).2 := by
  unfold allocate_pre
  apply redistribute_lf_nonneg
  have := initial_used_le cs S hS hT
  linarith

theorem activeCount_le_length (cs : List Customer) : activeCount cs ≤ cs.length :=
  List.countP_le_length _

theorem allocate_pre_terminal (cs : List Customer) (S : ℚ)
    (hr : ∀ c ∈ cs, 0 ≤ c.ratio) :
    (allocate_pre cs S).2 ≤ 0 ∨ ratioSum (allocate_pre cs S).1 = 0 := by
  unfold allocate_pre
  apply redistribute_terminal
  · intro c hc
    obtain ⟨c₀, hc₀, rfl⟩ := List.mem_map.mp hc
    exact hr c₀ hc₀
  · have h := activeCount_le_length (cs.map (initialAlloc S))
    rw [List.length_map] at h
    omega

theorem allocate_pre_bounds (cs : List Customer) (S : ℚ)
    (hr : ∀ c ∈ cs, 0 ≤ c.ratio) (hd : ∀ c ∈ cs, 0 ≤ c.demand) (hS : 0 ≤ S) :
    ∀ c ∈ (allocate_pre cs S).1, 0 ≤ c.allocated ∧ c.allocated ≤ c.demand := by
  unfold allocate_pre
  apply redistribute_bounds
  · intro c hc
    obtain ⟨c₀, hc₀, rfl⟩ := List.mem_map.mp hc
    exact hr c₀ hc₀
  · intro c hc
    obtain ⟨c₀, hc₀, rfl⟩ := List.mem_map.mp hc
    constructor
    · exact le_min (mul_nonneg (hr c₀ hc₀) hS) (hd c₀ hc₀)
    · exact min_le_right _ _

/-- If the recursion stopped because the remaining unmet customers carry
zero total ratio, every positive-ratio customer is fully served. -/
theorem pos_ratio_met_of_ratioSum_zero (l : List Customer)
    (hr : ∀ c ∈ l, 0 ≤ c.ratio)
    (hb : ∀ c ∈ l, 0 ≤ c.allocated ∧ c.allocated ≤ c.demand)
    (h0 : ratioSum l = 0) :
    ∀ c ∈ l, 0 < c.ratio → c.allocated = c.demand := by
  intro c hc hcr
  have hz := unmet_ratio_zero_of_ratioSum_zero l hr h0 c hc
  by_cases hrem : 0 < remain c
  · exact absurd (hz hrem) (ne_of_gt hcr)
  · have : c.demand ≤ c.allocated := by
      unfold remain at hrem
      linarith [not_lt.mp hrem]
    exact le_antisymm (hb c hc).2 this

/-! ### Facts about Python rounding -/

theorem pyRound_cases (x : ℚ) : pyRound x = ⌊x⌋ ∨ pyRound x = ⌊x⌋ + 1 := by
  unfold pyRound
  split
  · left; rfl
  split
  · right; rfl
  split
  · left; rfl
  · right; rfl

theorem floor_le_pyRound (x : ℚ) : ⌊x⌋ ≤ pyRound x := by
  rcases pyRound_cases x with h | h <;> omega

theorem pyRound_le_floor_add_one (x : ℚ) : pyRound x ≤ ⌊x⌋ + 1 := by
  rcases pyRound_cases x with h | h <;> omega

theorem pyRound_int (k : ℤ) : pyRound (k : ℚ) = k := by
  unfold pyRound
  rw [Int.floor_intCast]
  rw [if_pos]
  rw [sub_self]
  norm_num

theorem pyRound_le_of_le_int (x : ℚ) (k : ℤ) (h : x ≤ (k : ℚ)) : pyRound x ≤ k := by
  unfold pyRound
  split
  · exact Int.le_of_lt_add_one (lt_of_le_of_lt (Int.floor_le_floor h) (by
      rw [Int.floor_intCast]; omega))
  · have hfrac : ¬ x - ⌊x⌋ < 1/2 := ‹_›
    have hne : (⌊x⌋ : ℚ) < x := by
      rcases lt_or_eq_of_le (Int.floor_le x) with h' | h'
      · exact h'
      · exfalso
        apply hfrac
        rw [← h']
        norm_num
    have hlt : ⌊x⌋ < k := by
      have h1 : (⌊x⌋ : ℚ) < (k : ℚ) := lt_of_lt_of_le hne h
      exact_mod_cast h1
    split
    · omega
    split
    · omega
    · omega

theorem pyRound_mono (x y : ℚ) (hxy : x ≤ y) : pyRound x ≤ pyRound y := by
  have hf : ⌊x⌋ ≤ ⌊y⌋ := Int.floor_le_floor hxy
  rcases lt_or_eq_of_le hf with hlt | heq
  · have h1 := pyRound_le_floor_add_one x
    have h2 := floor_le_pyRound y
    omega
  · have hfr : x - (⌊x⌋ : ℚ) ≤ y - (⌊y⌋ : ℚ) := by
      rw [← heq]
      linarith
    by_cases c1 : x - ⌊x⌋ < 1/2
    · have hx : pyRound x = ⌊x⌋ := by
        unfold pyRound
        rw [if_pos c1]
      have h2 := floor_le_pyRound y
      omega
    · by_cases c2 : (1 : ℚ)/2 < x - ⌊x⌋
      · have hy2 : (1 : ℚ)/2 < y - ⌊y⌋ := lt_of_lt_of_le c2 hfr
        have hy1 : ¬ y - (⌊y⌋ : ℚ) < 1/2 := not_lt.mpr (le_of_lt hy2)
        have hx : pyRound x = ⌊x⌋ + 1 := by
          unfold pyRound
          rw [if_neg c1, if_pos c2]
        have hy : pyRound y = ⌊y⌋ + 1 := by
          unfold pyRound
          rw [if_neg hy1, if_pos hy2]
        omega
      · by_cases c3 : (1 : ℚ)/2 < y - ⌊y⌋
        · have hy1 : ¬ y - (⌊y⌋ : ℚ) < 1/2 := not_lt.mpr (le_of_lt c3)
          have hy : pyRound y = ⌊y⌋ + 1 := by
            unfold pyRound
            rw [if_neg hy1, if_pos c3]
          have h1 := pyRound_le_floor_add_one x
          omega
        · have hy1 : ¬ y - (⌊y⌋ : ℚ) < 1/2 := by
            push_neg at c1
            exact not_lt.mpr (le_trans c1 hfr)
          have hx : pyRound x = if ⌊x⌋ % 2 = 0 then ⌊x⌋ else ⌊x⌋ + 1 := by
            unfold pyRound
            rw [if_neg c1, if_neg c2]
          have hy : pyRound y = if ⌊y⌋ % 2 = 0 then ⌊y⌋ else ⌊y⌋ + 1 := by
            unfold pyRound
            rw [if_neg hy1, if_neg c3]
          rw [hx, hy, ← heq]

/-! ### Remaining plumbing -/

theorem allocate_pre_length (cs : List Customer) (S : ℚ) :
    (allocate_pre cs S).1.length = cs.length := by
  unfold allocate_pre
  rw [redistribute_length, List.length_map]

theorem allocate_length (cs : List Customer) (S : ℚ) :
    (allocate_stock_recursive cs S).length = cs.length := by
  unfold allocate_stock_recursive
  rw [List.length_map, allocate_pre_length]

theorem sumAlloc_map (cs : List Customer) (f : Customer → Customer) :
    sumAlloc (cs.map f) = (cs.map fun c => (f c).allocated).sum := by
  unfold sumAlloc
  rw [List.map_map]
  rfl

theorem allocate_getD (cs : List Customer) (S : ℚ) (i : Nat) (hi : i < cs.length) :
    (allocate_stock_recursive cs S).getD i ⟨0, 0, 0⟩ =
      roundAllocated ((allocate_pre cs S).1.getD i ⟨0, 0, 0⟩) := by
  unfold allocate_stock_recursive
  exact getD_map _ _ i (by rw [allocate_pre_length]; exact hi) _ _

theorem pyRound_zero : pyRound 0 = 0 := by
  have := pyRound_int 0
  simpa using this

/-! ### The claims -/

/-- Claim C9 (confirmed): on customers `[{ratio: 0.6, demand: 100},
{ratio: 0.4, demand: 20}]` with stock 100, the initial pass yields
allocations `[60, 20]` with leftover 20, a single redistribution round
gives the first customer 20 more and ends with leftover 0, and the final
rounded result is `[80, 20]`, whose allocations sum to the stock 100. -/
theorem c9_scenario_a :
    ([⟨3/5, 100, 0⟩, ⟨2/5, 20, 0⟩] : List Customer).map (initialAlloc 100) =
      [⟨3/5, 100, 60⟩, ⟨2/5, 20, 20⟩] ∧
    (100 : ℚ) - sumAlloc (([⟨3/5, 100, 0⟩, ⟨2/5, 20, 0⟩] : List Customer).map
      (initialAlloc 100)) = 20 ∧
    redistribute_recursive 1 [⟨3/5, 100, 60⟩, ⟨2/5, 20, 20⟩] 20 =
      ([⟨3/5, 100, 80⟩, ⟨2/5, 20, 20⟩], 0) ∧
    allocate_stock_recursive [⟨3/5, 100, 0⟩, ⟨2/5, 20, 0⟩] 100 =
      [⟨3/5, 100, 80⟩, ⟨2/5, 20, 20⟩] ∧
    sumAlloc (allocate_stock_recursive [⟨3/5, 100, 0⟩, ⟨2/5, 20, 0⟩] 100) = 100 := by
  norm_num [allocate_stock_recursive, allocate_pre, redistribute_recursive,
    initialAlloc, sumAlloc, ratioSum, allocatedThisRound, roundAmount,
    roundUpdate, remain, roundAllocated, pyRound, min_def]

/-- Claim C1 counterexample: the input `[{ratio: 1, demand: 0},
{ratio: 0, demand: 100}]` with stock 10 satisfies every hypothesis of the
claim (non-negative data, total demand 100 ≥ stock 10, a customer with
positive ratio exists), yet the pre-rounding allocation sum is 0, not 10:
the only positive-ratio customer has zero demand, so `ratio_sum` is 0 in
the first redistribution round and the whole leftover stays unallocated. -/
theorem c1_conservation_cex :
    (0 : ℚ) ≤ 10 ∧
    (∀ c ∈ ([⟨1, 0, 0⟩, ⟨0, 100, 0⟩] : List Customer), 0 ≤ c.ratio ∧ 0 ≤ c.demand) ∧
    (10 : ℚ) ≤ (([⟨1, 0, 0⟩, ⟨0, 100, 0⟩] : List Customer).map fun c => c.demand).sum ∧
    (∃ c ∈ ([⟨1, 0, 0⟩, ⟨0, 100, 0⟩] : List Customer), 0 < c.ratio) ∧
    sumAlloc (allocate_pre [⟨1, 0, 0⟩, ⟨0, 100, 0⟩] 10).1 ≠ 10 := by
  refine ⟨by norm_num, by norm_num [List.forall_mem_cons], by norm_num, ?_, ?_⟩
  · exact ⟨⟨1, 0, 0⟩, by norm_num, by norm_num⟩
  · norm_num [allocate_pre, redistribute_recursive, initialAlloc, sumAlloc,
      ratioSum, allocatedThisRound, roundAmount, roundUpdate, remain, min_def]

/-- Claim C1 amended (proved): under the preconditions, if moreover the
ratios sum to at most 1 and the total demand of the customers with
POSITIVE ratio is at least the stock, then the pre-rounding allocation
sum equals the stock exactly. -/
theorem c1_conservation_amended (cs : List Customer) (S : ℚ)
    (hr : ∀ c ∈ cs, 0 ≤ c.ratio) (hd : ∀ c ∈ cs, 0 ≤ c.demand) (hS : 0 ≤ S)
    (hT : ratioTotal cs ≤ 1) (hD : S ≤ posRatioDemandSum cs) :
    sumAlloc (allocate_pre cs S).1 = S := by
  have hsum := allocate_pre_sum cs S
  have hlf := allocate_pre_lf_nonneg cs S hS hT
  rcases allocate_pre_terminal cs S hr with hterm | hterm
  · have : (allocate_pre cs S).2 = 0 := le_antisymm hterm hlf
    linarith
  · obtain ⟨lam, hlam, hpre⟩ := allocate_pre_waterfill cs S hr
    have hlam0 : 0 ≤ lam := le_trans hS hlam
    have hb := allocate_pre_bounds cs S hr hd hS
    have hprer : ∀ x ∈ (allocate_pre cs S).1, 0 ≤ x.ratio := by
      rw [hpre]
      intro x hx
      obtain ⟨x₀, hx₀, rfl⟩ := List.mem_map.mp hx
      exact hr x₀ hx₀
    have hmet := pos_ratio_met_of_ratioSum_zero (allocate_pre cs S).1 hprer hb hterm
    have hge : posRatioDemandSum cs ≤ sumAlloc (allocate_pre cs S).1 := by
      rw [hpre, sumAlloc_map]
      unfold posRatioDemandSum
      apply List.sum_le_sum
      intro c hc
      by_cases hcr : 0 < c.ratio
      · rw [if_pos hcr]
        have hmm : (waterfillInit lam c).allocated = (waterfillInit lam c).demand := by
          apply hmet
          · rw [hpre]
            exact List.mem_map_of_mem _ hc
          · rw [waterfillInit_ratio]
            exact hcr
        rw [hmm, waterfillInit_demand]
      · rw [if_neg hcr]
        exact le_min (hd c hc) (mul_nonneg (hr c hc) hlam0)
    linarith

/-- Claim C2 counterexample: for `[{ratio: 1, demand: 10},
{ratio: 1, demand: 10}]` with stock 10 — an input satisfying the claim's
stated preconditions (each ratio is in [0,1], demands and stock are
non-negative) — `allocate` returns allocations summing to 20 > 10: the
ratios sum to 2, so the initial pass already over-allocates. -/
theorem c2_sum_le_cex :
    (0 : ℚ) ≤ 10 ∧
    (∀ c ∈ ([⟨1, 10, 0⟩, ⟨1, 10, 0⟩] : List Customer),
      0 ≤ c.ratio ∧ c.ratio ≤ 1 ∧ 0 ≤ c.demand) ∧
    sumAlloc (allocate_stock_recursive [⟨1, 10, 0⟩, ⟨1, 10, 0⟩] 10) = 20 ∧
    ¬ sumAlloc (allocate_stock_recursive [⟨1, 10, 0⟩, ⟨1, 10, 0⟩] 10) ≤ 10 := by
  have h : sumAlloc (allocate_stock_recursive [⟨1, 10, 0⟩, ⟨1, 10, 0⟩] 10) = 20 := by
    norm_num [allocate_stock_recursive, allocate_pre, redistribute_recursive,
      initialAlloc, sumAlloc, ratioSum, allocatedThisRound, roundAmount,
      roundUpdate, remain, roundAllocated, pyRound, min_def]
  refine ⟨by norm_num, by norm_num [List.forall_mem_cons], h, ?_⟩
  rw [h]
  norm_num

/-- Claim C2 amended (proved): under the preconditions, and additionally
assuming the ratios sum to at most 1, the PRE-rounding allocation sum is
at most the stock, with equality whenever some customer with positive
ratio still has unmet demand at completion (equivalently: unless every
positive-ratio customer's demand is exhausted).  The post-rounding sum can
exceed the stock (see the counterexample). -/
theorem c2_sum_le_amended (cs : List Customer) (S : ℚ)
    (hr : ∀ c ∈ cs, 0 ≤ c.ratio) (hd : ∀ c ∈ cs, 0 ≤ c.demand) (hS : 0 ≤ S)
    (hT : ratioTotal cs ≤ 1) :
    sumAlloc (allocate_pre cs S).1 ≤ S ∧
    ((∃ c ∈ (allocate_pre cs S).1, 0 < c.ratio ∧ c.allocated < c.demand) →
      sumAlloc (allocate_pre cs S).1 = S) := by
  have hsum := allocate_pre_sum cs S
  have hlf := allocate_pre_lf_nonneg cs S hS hT
  constructor
  · linarith
  · rintro ⟨c, hc, hcr, hlt⟩
    rcases allocate_pre_terminal cs S hr with hterm | hterm
    · have : (allocate_pre cs S).2 = 0 := le_antisymm hterm hlf
      linarith
    · have hb := allocate_pre_bounds cs S hr hd hS
      have hprer : ∀ x ∈ (allocate_pre cs S).1, 0 ≤ x.ratio := by
        obtain ⟨lam, _, hpre⟩ := allocate_pre_waterfill cs S hr
        rw [hpre]
        intro x hx
        obtain ⟨x₀, hx₀, rfl⟩ := List.mem_map.mp hx
        exact hr x₀ hx₀
      have := pos_ratio_met_of_ratioSum_zero _ hprer hb hterm c hc hcr
      linarith

/-- Claim C4 counterexample: the input `[{ratio: -1, demand: 5}]` with
stock 10 violates the precondition (negative ratio), yet `allocate`
does not fail with `InvalidInput` — the source contains no validation or
`raise` at all — it returns normally with allocation 5. -/
theorem c4_invalid_input_cex :
    (⟨-1, 5, 0⟩ : Customer).ratio < 0 ∧
    allocate_run [⟨-1, 5, 0⟩] 10 = Except.ok [⟨-1, 5, 5⟩] := by
  constructor
  · norm_num
  · norm_num [allocate_run, allocate_stock_recursive, allocate_pre,
      redistribute_recursive, initialAlloc, sumAlloc, ratioSum,
      allocatedThisRound, roundAmount, roundUpdate, remain, roundAllocated,
      pyRound, min_def]

/-- Claim C4 amended (proved): the reference code performs no input
validation whatever — it never raises `InvalidInput` (or anything else);
a call on invalid input proceeds and returns a normal allocation (see the
counterexample).  The second half of the claim holds: on every input
satisfying the preconditions the function returns normally. -/
theorem c4_no_error_amended (cs : List Customer) (S : ℚ)
    (_hr : ∀ c ∈ cs, 0 ≤ c.ratio) (_hd : ∀ c ∈ cs, 0 ≤ c.demand)
    (_hS : 0 ≤ S) : (allocate_run cs S).isOk = true := rfl

/-- Witness for `c4_no_error_amended` at a concrete valid input. -/
theorem c4_no_error_amended_witness :
    (allocate_run [⟨1/2, 4, 0⟩] 6).isOk = true :=
  c4_no_error_amended [⟨1/2, 4, 0⟩] 6 (by norm_num [List.forall_mem_cons])
    (by norm_num [List.forall_mem_cons]) (by norm_num)

/-- Witness for `c1_conservation_amended` at a concrete input. -/
theorem c1_conservation_amended_witness :
    sumAlloc (allocate_pre [⟨1/2, 10, 0⟩, ⟨1/2, 99, 0⟩] 10).1 = 10 :=
  c1_conservation_amended [⟨1/2, 10, 0⟩, ⟨1/2, 99, 0⟩] 10
    (by norm_num [List.forall_mem_cons]) (by norm_num [List.forall_mem_cons])
    (by norm_num) (by norm_num [ratioTotal]) (by norm_num [posRatioDemandSum])

/-- Witness for `c2_sum_le_amended` at a concrete input. -/
theorem c2_sum_le_amended_witness :
    sumAlloc (allocate_pre [⟨1/2, 10, 0⟩, ⟨1/2, 99, 0⟩] 10).1 ≤ 10 :=
  (c2_sum_le_amended [⟨1/2, 10, 0⟩, ⟨1/2, 99, 0⟩] 10
    (by norm_num [List.forall_mem_cons]) (by norm_num [List.forall_mem_cons])
    (by norm_num) (by norm_num [ratioTotal])).1

/-- Claim C3 (confirmed): under the preconditions, after the initial pass
and at every intermediate state of the redistribution (every fuel value
covers every number of completed rounds, including the state just before
rounding, which is `allocate_pre`), every customer satisfies
`0 ≤ allocated ≤ demand`. -/
theorem c3_bounds (cs : List Customer) (S : ℚ) (fuel : Nat)
    (hr : ∀ c ∈ cs, 0 ≤ c.ratio) (hd : ∀ c ∈ cs, 0 ≤ c.demand) (hS : 0 ≤ S) :
    (∀ c ∈ (redistribute_recursive fuel (cs.map (initialAlloc S))
        (S - sumAlloc (cs.map (initialAlloc S)))).1,
      0 ≤ c.allocated ∧ c.allocated ≤ c.demand) ∧
    (∀ c ∈ (allocate_pre cs S).1, 0 ≤ c.allocated ∧ c.allocated ≤ c.demand) := by
  have hinit : ∀ c ∈ cs.map (initialAlloc S),
      0 ≤ c.allocated ∧ c.allocated ≤ c.demand := by
    intro c hc
    obtain ⟨c₀, hc₀, rfl⟩ := List.mem_map.mp hc
    exact ⟨le_min (mul_nonneg (hr c₀ hc₀) hS) (hd c₀ hc₀), min_le_right _ _⟩
  have hratio : ∀ c ∈ cs.map (initialAlloc S), 0 ≤ c.ratio := by
    intro c hc
    obtain ⟨c₀, hc₀, rfl⟩ := List.mem_map.mp hc
    exact hr c₀ hc₀
  exact ⟨redistribute_bounds fuel _ _ hratio hinit,
    allocate_pre_bounds cs S hr hd hS⟩

/-- Witness for `c3_bounds` at a concrete input (state before rounding). -/
theorem c3_bounds_witness :
    0 ≤ ((allocate_pre [⟨1/2, 3, 0⟩] 4).1.getD 0 ⟨0, 0, 0⟩).allocated ∧
    ((allocate_pre [⟨1/2, 3, 0⟩] 4).1.getD 0 ⟨0, 0, 0⟩).allocated ≤
      ((allocate_pre [⟨1/2, 3, 0⟩] 4).1.getD 0 ⟨0, 0, 0⟩).demand :=
  (c3_bounds [⟨1/2, 3, 0⟩] 4 2 (by norm_num [List.forall_mem_cons])
    (by norm_num [List.forall_mem_cons]) (by norm_num)).2 _
    (getD_mem _ 0 _ (by rw [allocate_pre_length]; norm_num))

/-- Claim C5 (confirmed): under the preconditions the redistribution
terminates within `n + 1` rounds where `n` is the number of customers —
running it with fuel `n + 1` (as `allocate_stock_recursive` does) gives
the same result as with any larger fuel, because each executed round
either saturates a positive-ratio customer or is the last — and every
executed round hands out a strictly positive amount (so the leftover
strictly decreases whenever a round runs at all). -/
theorem c5_fuel_bound (cs : List Customer) (lf : ℚ)
    (hr : ∀ c ∈ cs, 0 ≤ c.ratio) :
    (∀ extra : Nat, redistribute_recursive (cs.length + 1) cs lf =
      redistribute_recursive (cs.length + 1 + extra) cs lf) ∧
    (ratioSum cs ≠ 0 → 0 < lf →
      0 < allocatedThisRound cs lf (ratioSum cs)) := by
  constructor
  · intro extra
    apply redistribute_fuel_stable (cs.length + 1) cs lf hr
    · have := activeCount_le_length cs
      omega
    · omega
  · intro hne hlf
    exact allocatedThisRound_pos cs lf hr hlf hne

/-- Witness for `c5_fuel_bound` at a concrete input. -/
theorem c5_fuel_bound_witness :
    redistribute_recursive 2 [⟨1/2, 10, 0⟩] 3 =
      redistribute_recursive 7 [⟨1/2, 10, 0⟩] 3 ∧
    0 < allocatedThisRound [⟨1/2, 10, 0⟩] 3 (ratioSum [⟨1/2, 10, 0⟩]) :=
  ⟨(c5_fuel_bound [⟨1/2, 10, 0⟩] 3 (by norm_num [List.forall_mem_cons])).1 5,
   (c5_fuel_bound [⟨1/2, 10, 0⟩] 3 (by norm_num [List.forall_mem_cons])).2
     (by norm_num [ratioSum, remain]) (by norm_num)⟩

/-- Claim C7 (confirmed): under the preconditions every customer whose
ratio is 0 ends with final (rounded) allocation 0; and on the concrete
Scenario C input `[{ratio: 0, demand: 5}]` with stock 10 the result is
`[0]` with the whole leftover 10 left unallocated. -/
theorem c7_zero_ratio (cs : List Customer) (S : ℚ)
    (hr : ∀ c ∈ cs, 0 ≤ c.ratio) (hd : ∀ c ∈ cs, 0 ≤ c.demand) :
    (∀ c ∈ allocate_stock_recursive cs S, c.ratio = 0 → c.allocated = 0) ∧
    allocate_stock_recursive [⟨0, 5, 0⟩] 10 = [⟨0, 5, 0⟩] ∧
    (allocate_pre [⟨0, 5, 0⟩] 10).2 = 10 := by
  refine ⟨?_, ?_, ?_⟩
  · intro c hc hc0
    unfold allocate_stock_recursive at hc
    obtain ⟨p, hp, rfl⟩ := List.mem_map.mp hc
    obtain ⟨lam, hlam, hpre⟩ := allocate_pre_waterfill cs S hr
    rw [hpre] at hp
    obtain ⟨c₀, hc₀, rfl⟩ := List.mem_map.mp hp
    have hr0 : c₀.ratio = 0 := hc0
    have halloc : (waterfillInit lam c₀).allocated = 0 := by
      unfold waterfillInit
      simp only
      rw [hr0, zero_mul]
      exact min_eq_right (hd c₀ hc₀)
    show ((pyRound (waterfillInit lam c₀).allocated : ℤ) : ℚ) = 0
    rw [halloc, pyRound_zero]
    norm_num
  · norm_num [allocate_stock_recursive, allocate_pre, redistribute_recursive,
      initialAlloc, sumAlloc, ratioSum, allocatedThisRound, roundAmount,
      roundUpdate, remain, roundAllocated, pyRound, min_def]
  · norm_num [allocate_pre, redistribute_recursive, initialAlloc, sumAlloc,
      ratioSum, allocatedThisRound, roundAmount, roundUpdate, remain, min_def]

/-- Witness for `c7_zero_ratio` at a concrete input. -/
theorem c7_zero_ratio_witness :
    ((allocate_stock_recursive [⟨0, 7, 0⟩] 3).getD 0 ⟨0, 0, 0⟩).allocated = 0 :=
  (c7_zero_ratio [⟨0, 7, 0⟩] 3 (by norm_num [List.forall_mem_cons])
      (by norm_num [List.forall_mem_cons])).1 _
    (getD_mem _ 0 _ (by rw [allocate_length]; norm_num))
    (by norm_num [allocate_stock_recursive, allocate_pre,
      redistribute_recursive, initialAlloc, sumAlloc, ratioSum,
      allocatedThisRound, roundAmount, roundUpdate, remain, roundAllocated,
      pyRound, min_def])

/-- Claim C8 (confirmed): degenerate inputs are not errors and produce
all-zero allocations: with non-negative demands, zero stock allocates 0
to every customer; an empty customer list returns the empty list; and if
every ratio is 0 every customer's final allocation is 0. -/
theorem c8_degenerate (cs : List Customer) (S : ℚ)
    (hd : ∀ c ∈ cs, 0 ≤ c.demand) :
    (∀ c ∈ allocate_stock_recursive cs 0, c.allocated = 0) ∧
    allocate_stock_recursive [] S = [] ∧
    ((∀ c ∈ cs, c.ratio = 0) → ∀ c ∈ allocate_stock_recursive cs S,
      c.allocated = 0) := by
  refine ⟨?_, ?_, ?_⟩
  · have used0 : sumAlloc (cs.map (initialAlloc 0)) = 0 := by
      rw [sumAlloc_map]
      apply sum_map_zero_of
      intro c hc
      show min (c.ratio * 0) c.demand = 0
      rw [mul_zero]
      exact min_eq_left (hd c hc)
    have hpre : (allocate_pre cs 0).1 = cs.map (initialAlloc 0) := by
      unfold allocate_pre
      rw [used0, redistribute_succ]
      norm_num
    intro c hc
    unfold allocate_stock_recursive at hc
    rw [hpre] at hc
    obtain ⟨p, hp, rfl⟩ := List.mem_map.mp hc
    obtain ⟨c₀, hc₀, rfl⟩ := List.mem_map.mp hp
    show ((pyRound (initialAlloc 0 c₀).allocated : ℤ) : ℚ) = 0
    have h0 : (initialAlloc 0 c₀).allocated = 0 := by
      show min (c₀.ratio * 0) c₀.demand = 0
      rw [mul_zero]
      exact min_eq_left (hd c₀ hc₀)
    rw [h0, pyRound_zero]
    norm_num
  · show ((allocate_pre [] S).1.map roundAllocated) = []
    unfold allocate_pre
    rw [redistribute_succ]
    by_cases h : S - sumAlloc (([] : List Customer).map (initialAlloc S)) ≤ 0
    · rw [if_pos h]
      rfl
    · rw [if_neg h, if_pos]
      · rfl
      · rfl
  · intro h0 c hc
    have hinit : ∀ p ∈ cs.map (initialAlloc S), p.allocated = 0 ∧ p.ratio = 0 := by
      intro p hp
      obtain ⟨c₀, hc₀, rfl⟩ := List.mem_map.mp hp
      refine ⟨?_, h0 c₀ hc₀⟩
      show min (c₀.ratio * S) c₀.demand = 0
      rw [h0 c₀ hc₀, zero_mul]
      exact min_eq_left (hd c₀ hc₀)
    have hrs : ratioSum (cs.map (initialAlloc S)) = 0 := by
      unfold ratioSum
      apply sum_map_zero_of
      intro p hp
      split
      · exact (hinit p hp).2
      · rfl
    have hpre : (allocate_pre cs S).1 = cs.map (initialAlloc S) := by
      unfold allocate_pre
      rw [redistribute_succ]
      by_cases hl : S - sumAlloc (cs.map (initialAlloc S)) ≤ 0
      · rw [if_pos hl]
      · rw [if_neg hl, if_pos hrs]
    unfold allocate_stock_recursive at hc
    rw [hpre] at hc
    obtain ⟨p, hp, rfl⟩ := List.mem_map.mp hc
    show ((pyRound p.allocated : ℤ) : ℚ) = 0
    rw [(hinit p hp).1, pyRound_zero]
    norm_num

/-- Witness for `c8_degenerate` at concrete inputs for all three parts. -/
theorem c8_degenerate_witness :
    ((allocate_stock_recursive [⟨1/2, 7, 0⟩] 0).getD 0 ⟨0, 0, 0⟩).allocated = 0 ∧
    allocate_stock_recursive [] 5 = [] ∧
    ((allocate_stock_recursive [⟨0, 7, 0⟩] 5).getD 0 ⟨0, 0, 0⟩).allocated = 0 :=
  ⟨(c8_degenerate [⟨1/2, 7, 0⟩] 5 (by norm_num [List.forall_mem_cons])).1 _
      (getD_mem _ 0 _ (by rw [allocate_length]; norm_num)),
   (c8_degenerate ([] : List Customer) 5 (by norm_num)).2.1,
   (c8_degenerate [⟨0, 7, 0⟩] 5 (by norm_num [List.forall_mem_cons])).2.2
      (by norm_num [List.forall_mem_cons]) _
      (getD_mem _ 0 _ (by rw [allocate_length]; norm_num))⟩

/-- Claim C10 (confirmed): under the preconditions, when every demand is
a whole number the demand ceiling survives the final rounding step: every
returned allocation satisfies `allocated ≤ demand`. -/
theorem c10_integer_demand (cs : List Customer) (S : ℚ)
    (hr : ∀ c ∈ cs, 0 ≤ c.ratio) (hd : ∀ c ∈ cs, 0 ≤ c.demand) (hS : 0 ≤ S)
    (hint : ∀ c ∈ cs, ∃ k : ℤ, c.demand = (k : ℚ)) :
    ∀ c ∈ allocate_stock_recursive cs S, c.allocated ≤ c.demand := by
  intro c hc
  unfold allocate_stock_recursive at hc
  obtain ⟨p, hp, rfl⟩ := List.mem_map.mp hc
  have hb := allocate_pre_bounds cs S hr hd hS p hp
  obtain ⟨lam, _, hpre⟩ := allocate_pre_waterfill cs S hr
  rw [hpre] at hp
  obtain ⟨c₀, hc₀, hpc⟩ := List.mem_map.mp hp
  obtain ⟨k, hk⟩ := hint c₀ hc₀
  show ((pyRound p.allocated : ℤ) : ℚ) ≤ p.demand
  have hdem : p.demand = (k : ℚ) := by
    rw [← hpc, waterfillInit_demand, hk]
  rw [hdem]
  have h1 : p.allocated ≤ (k : ℚ) := by
    rw [← hdem]
    exact hb.2
  exact_mod_cast pyRound_le_of_le_int _ k h1

/-- Witness for `c10_integer_demand` at a concrete input. -/
theorem c10_integer_demand_witness :
    ((allocate_stock_recursive [⟨1/2, 2, 0⟩] 3).getD 0 ⟨0, 0, 0⟩).allocated ≤
      ((allocate_stock_recursive [⟨1/2, 2, 0⟩] 3).getD 0 ⟨0, 0, 0⟩).demand :=
  c10_integer_demand [⟨1/2, 2, 0⟩] 3 (by norm_num [List.forall_mem_cons])
    (by norm_num [List.forall_mem_cons]) (by norm_num)
    (by
      intro c hc
      rw [List.mem_singleton] at hc
      subst hc
      exact ⟨2, by norm_num⟩) _
    (getD_mem _ 0 _ (by rw [allocate_length]; norm_num))

/-- Monotonicity of the pre-rounding allocation in one customer's ratio.
Raising customer `i`'s ratio from `c1.ratio` to `a2` (everything else
fixed) never decreases customer `i`'s pre-rounding allocation. -/
theorem allocate_pre_mono (cs : List Customer) (S a2 : ℚ) (i : Nat)
    (hi : i < cs.length) (c1 : Customer) (hc1 : cs.getD i ⟨0, 0, 0⟩ = c1)
    (hr : ∀ c ∈ cs, 0 ≤ c.ratio) (hd : ∀ c ∈ cs, 0 ≤ c.demand) (hS : 0 ≤ S)
    (ha : c1.ratio ≤ a2) :
    ((allocate_pre cs S).1.getD i ⟨0, 0, 0⟩).allocated ≤
      ((allocate_pre (cs.set i { c1 with ratio := a2 }) S).1.getD i
        ⟨0, 0, 0⟩).allocated := by
  have hc1mem : c1 ∈ cs := hc1 ▸ getD_mem cs i _ hi
  have ha1 : 0 ≤ c1.ratio := hr c1 hc1mem
  have ha2 : 0 ≤ a2 := le_trans ha1 ha
  have hd1 : 0 ≤ c1.demand := hd c1 hc1mem
  have hi2 : i < (cs.set i { c1 with ratio := a2 }).length := by
    rw [List.length_set]
    exact hi
  have hr2 : ∀ c ∈ cs.set i { c1 with ratio := a2 }, 0 ≤ c.ratio := by
    intro c hc
    rcases List.mem_or_eq_of_mem_set hc with h | h
    · exact hr c h
    · rw [h]
      exact ha2
  have hd2 : ∀ c ∈ cs.set i { c1 with ratio := a2 }, 0 ≤ c.demand := by
    intro c hc
    rcases List.mem_or_eq_of_mem_set hc with h | h
    · exact hd c h
    · rw [h]
      exact hd1
  obtain ⟨lam1, hlam1, hpre1⟩ := allocate_pre_waterfill cs S hr
  obtain ⟨lam2, hlam2, hpre2⟩ :=
    allocate_pre_waterfill (cs.set i { c1 with ratio := a2 }) S hr2
  have hlam1nn : 0 ≤ lam1 := le_trans hS hlam1
  have hlam2nn : 0 ≤ lam2 := le_trans hS hlam2
  have hA1 : (allocate_pre cs S).1.getD i ⟨0, 0, 0⟩ = waterfillInit lam1 c1 := by
    rw [hpre1, getD_map _ _ i hi ⟨0, 0, 0⟩ ⟨0, 0, 0⟩, hc1]
  have hgset : (cs.set i { c1 with ratio := a2 }).getD i ⟨0, 0, 0⟩ =
      ({ c1 with ratio := a2 } : Customer) := getD_set_self cs i _ _ hi
  have hA2 : (allocate_pre (cs.set i { c1 with ratio := a2 }) S).1.getD i
      ⟨0, 0, 0⟩ = waterfillInit lam2 { c1 with ratio := a2 } := by
    rw [hpre2, getD_map _ _ i hi2 ⟨0, 0, 0⟩ ⟨0, 0, 0⟩, hgset]
  have hsum1 := allocate_pre_sum cs S
  have hsum2 := allocate_pre_sum (cs.set i { c1 with ratio := a2 }) S
  have hS1 : sumAlloc (allocate_pre cs S).1 =
      (cs.map fun c => (waterfillInit lam1 c).allocated).sum := by
    rw [hpre1, sumAlloc_map]
  have hS2 : sumAlloc (allocate_pre (cs.set i { c1 with ratio := a2 }) S).1 =
      (cs.map fun c => (waterfillInit lam2 c).allocated).sum
        - (waterfillInit lam2 c1).allocated
        + (waterfillInit lam2 { c1 with ratio := a2 }).allocated := by
    rw [hpre2, sumAlloc_map]
    have h := sum_map_set (fun c => (waterfillInit lam2 c).allocated) cs i
      ({ c1 with ratio := a2 }) hi
    rw [hc1] at h
    exact h
  rcases allocate_pre_terminal (cs.set i { c1 with ratio := a2 }) S hr2 with
    hterm2 | hterm2
  · -- the modified run ended with leftover ≤ 0
    by_cases h02 : S - sumAlloc ((cs.set i { c1 with ratio := a2 }).map
        (initialAlloc S)) ≤ 0
    · -- the modified run never redistributed: its result is the initial pass
      have hpre2' : (allocate_pre (cs.set i { c1 with ratio := a2 }) S).1 =
          (cs.set i { c1 with ratio := a2 }).map (initialAlloc S) := by
        unfold allocate_pre
        rw [redistribute_succ, if_pos h02]
      have hA2' : (allocate_pre (cs.set i { c1 with ratio := a2 }) S).1.getD i
          ⟨0, 0, 0⟩ = initialAlloc S { c1 with ratio := a2 } := by
        rw [hpre2', getD_map _ _ i hi2 ⟨0, 0, 0⟩ ⟨0, 0, 0⟩, hgset]
      rw [hA1, hA2']
      by_cases h01 : S - sumAlloc (cs.map (initialAlloc S)) ≤ 0
      · -- the base run never redistributed either
        have hpre1' : (allocate_pre cs S).1 = cs.map (initialAlloc S) := by
          unfold allocate_pre
          rw [redistribute_succ, if_pos h01]
        have hA1' : waterfillInit lam1 c1 = initialAlloc S c1 := by
          rw [← hA1, hpre1', getD_map _ _ i hi ⟨0, 0, 0⟩ ⟨0, 0, 0⟩, hc1]
        rw [hA1']
        show min (c1.ratio * S) c1.demand ≤ min (a2 * S) c1.demand
        exact min_le_min (mul_le_mul_of_nonneg_right ha hS) (le_refl _)
      · -- the base run redistributed: compare through the sums
        have hlf1 : 0 ≤ (allocate_pre cs S).2 := by
          unfold allocate_pre
          apply redistribute_lf_nonneg
          linarith [not_le.mp h01]
        have hused2eq : sumAlloc ((cs.set i { c1 with ratio := a2 }).map
            (initialAlloc S)) =
            (cs.map fun c => (initialAlloc S c).allocated).sum
              - (initialAlloc S c1).allocated
              + (initialAlloc S { c1 with ratio := a2 }).allocated := by
          rw [sumAlloc_map]
          have h := sum_map_set (fun c => (initialAlloc S c).allocated) cs i
            ({ c1 with ratio := a2 }) hi
          rw [hc1] at h
          exact h
        have hg01 : ∀ c ∈ cs, (initialAlloc S c).allocated ≤
            (waterfillInit lam1 c).allocated := by
          intro c hc
          show min (c.ratio * S) c.demand ≤ min c.demand (c.ratio * lam1)
          refine le_min (min_le_right _ _) ?_
          exact le_trans (min_le_left _ _)
            (mul_le_mul_of_nonneg_left hlam1 (hr c hc))
        have hcomp : (cs.map fun c => (initialAlloc S c).allocated).sum
              - (initialAlloc S c1).allocated ≤
            (cs.map fun c => (waterfillInit lam1 c).allocated).sum
              - (waterfillInit lam1 c1).allocated := by
          have h := sum_map_sub_getD_le (fun c => (initialAlloc S c).allocated)
            (fun c => (waterfillInit lam1 c).allocated) cs i hi hg01
          rw [hc1] at h
          exact h
        rw [hS1] at hsum1
        linarith
    · -- the modified run redistributed to leftover exactly 0
      have hlf2nn : 0 ≤ (allocate_pre (cs.set i { c1 with ratio := a2 }) S).2 := by
        unfold allocate_pre
        apply redistribute_lf_nonneg
        linarith [not_le.mp h02]
      have hlf2 : (allocate_pre (cs.set i { c1 with ratio := a2 }) S).2 = 0 :=
        le_antisymm hterm2 hlf2nn
      have hused2eq : sumAlloc ((cs.set i { c1 with ratio := a2 }).map
          (initialAlloc S)) =
          (cs.map fun c => (initialAlloc S c).allocated).sum
            - (initialAlloc S c1).allocated
            + (initialAlloc S { c1 with ratio := a2 }).allocated := by
        rw [sumAlloc_map]
        have h := sum_map_set (fun c => (initialAlloc S c).allocated) cs i
          ({ c1 with ratio := a2 }) hi
        rw [hc1] at h
        exact h
      have hused1eq : sumAlloc (cs.map (initialAlloc S)) =
          (cs.map fun c => (initialAlloc S c).allocated).sum :=
        sumAlloc_map cs (initialAlloc S)
      have hle0 : (initialAlloc S c1).allocated ≤
          (initialAlloc S { c1 with ratio := a2 }).allocated := by
        show min (c1.ratio * S) c1.demand ≤ min (a2 * S) c1.demand
        exact min_le_min (mul_le_mul_of_nonneg_right ha hS) (le_refl _)
      have hlf1 : 0 ≤ (allocate_pre cs S).2 := by
        unfold allocate_pre
        apply redistribute_lf_nonneg
        have h02' := not_le.mp h02
        linarith
      rw [hA1, hA2]
      rcases le_or_lt lam1 lam2 with hll | hll
      · show min c1.demand (c1.ratio * lam1) ≤ min c1.demand (a2 * lam2)
        exact min_le_min (le_refl _) (mul_le_mul ha hll hlam1nn ha2)
      · have hg21 : ∀ c ∈ cs, (waterfillInit lam2 c).allocated ≤
            (waterfillInit lam1 c).allocated := by
          intro c hc
          show min c.demand (c.ratio * lam2) ≤ min c.demand (c.ratio * lam1)
          exact min_le_min (le_refl _)
            (mul_le_mul_of_nonneg_left hll.le (hr c hc))
        have hcomp : (cs.map fun c => (waterfillInit lam2 c).allocated).sum
              - (waterfillInit lam2 c1).allocated ≤
            (cs.map fun c => (waterfillInit lam1 c).allocated).sum
              - (waterfillInit lam1 c1).allocated := by
          have h := sum_map_sub_getD_le
            (fun c => (waterfillInit lam2 c).allocated)
            (fun c => (waterfillInit lam1 c).allocated) cs i hi hg21
          rw [hc1] at h
          exact h
        rw [hS2, hlf2] at hsum2
        rw [hS1] at hsum1
        linarith
  · -- the modified run stalled with zero total ratio among unmet customers
    by_cases hpos : 0 < a2
    · have hb2 := allocate_pre_bounds (cs.set i { c1 with ratio := a2 }) S
        hr2 hd2 hS
      have hprer2 : ∀ x ∈ (allocate_pre (cs.set i { c1 with ratio := a2 })
          S).1, 0 ≤ x.ratio := by
        rw [hpre2]
        intro x hx
        obtain ⟨x₀, hx₀, rfl⟩ := List.mem_map.mp hx
        exact hr2 x₀ hx₀
      have hmem2 : waterfillInit lam2 { c1 with ratio := a2 } ∈
          (allocate_pre (cs.set i { c1 with ratio := a2 }) S).1 := by
        rw [← hA2]
        apply getD_mem
        rw [allocate_pre_length]
        exact hi2
      have hmet := pos_ratio_met_of_ratioSum_zero _ hprer2 hb2 hterm2 _ hmem2
        (by rw [waterfillInit_ratio]; exact hpos)
      rw [hA1, hA2, hmet, waterfillInit_demand]
      show min c1.demand (c1.ratio * lam1) ≤ c1.demand
      exact min_le_left _ _
    · have h20 : a2 = 0 := le_antisymm (not_lt.mp hpos) ha2
      have h10 : c1.ratio = 0 := le_antisymm (by rw [← h20]; exact ha) ha1
      rw [hA1, hA2]
      show min c1.demand (c1.ratio * lam1) ≤ min c1.demand (a2 * lam2)
      rw [h10, h20, zero_mul, zero_mul]

/-- Claim C6 (confirmed): increasing a single customer's ratio while
holding every other field fixed never decreases that customer's final
(rounded) allocation. -/
theorem c6_mono (cs : List Customer) (S a2 : ℚ) (i : Nat) (hi : i < cs.length)
    (hr : ∀ c ∈ cs, 0 ≤ c.ratio) (hd : ∀ c ∈ cs, 0 ≤ c.demand) (hS : 0 ≤ S)
    (ha : (cs.getD i ⟨0, 0, 0⟩).ratio ≤ a2) :
    ((allocate_stock_recursive cs S).getD i ⟨0, 0, 0⟩).allocated ≤
      ((allocate_stock_recursive
        (cs.set i { cs.getD i ⟨0, 0, 0⟩ with ratio := a2 }) S).getD i
        ⟨0, 0, 0⟩).allocated := by
  have hi2 : i < (cs.set i { cs.getD i ⟨0, 0, 0⟩ with ratio := a2 }).length := by
    rw [List.length_set]
    exact hi
  rw [allocate_getD cs S i hi, allocate_getD _ S i hi2]
  have hpre := allocate_pre_mono cs S a2 i hi _ rfl hr hd hS ha
  show (((pyRound ((allocate_pre cs S).1.getD i ⟨0, 0, 0⟩).allocated : ℤ)) : ℚ) ≤
    (((pyRound ((allocate_pre (cs.set i
      { cs.getD i ⟨0, 0, 0⟩ with ratio := a2 }) S).1.getD i
      ⟨0, 0, 0⟩).allocated : ℤ)) : ℚ)
  exact_mod_cast pyRound_mono _ _ hpre

/-- Witness for `c6_mono` at a concrete input. -/
theorem c6_mono_witness :
    ((allocate_stock_recursive [⟨1/2, 10, 0⟩, ⟨1/2, 10, 0⟩] 10).getD 0
      ⟨0, 0, 0⟩).allocated ≤
      ((allocate_stock_recursive
        (([⟨1/2, 10, 0⟩, ⟨1/2, 10, 0⟩] : List Customer).set 0
          { ([⟨1/2, 10, 0⟩, ⟨1/2, 10, 0⟩] : List Customer).getD 0 ⟨0, 0, 0⟩ with
            ratio := 3/4 }) 10).getD 0 ⟨0, 0, 0⟩).allocated :=
  c6_mono [⟨1/2, 10, 0⟩, ⟨1/2, 10, 0⟩] 10 (3/4) 0 (by norm_num)
    (by norm_num [List.forall_mem_cons]) (by norm_num [List.forall_mem_cons])
    (by norm_num) (by norm_num [List.getD_cons_zero])
